import Mathlib

/-!
# Verification of the boolExprSimplify and dupSubExpr checkers

A shallow embedding of `lint/boolExprSimplify_checker.go` and
`lint/dupSubExpr_checker.go` (go-critic): the Go `ast.Expr` node shapes the
checkers inspect, the three rewrite rules applied by `astutil.Apply` in
post-order, the structural equality of the `astequal` library, the duplicated
sub-expression detector with its float exception and safety whitelist.
-/

namespace GoCritic

/-- The `go/token.Token` operator constants used by the two checkers. -/
inductive Token where
  | LOR | LAND | OR | AND | XOR | LSS | GTR | AND_NOT | REM
  | EQL | NEQ | LEQ | GEQ | QUO | SUB
  | ADD | MUL | SHL | NOT | ARROW
  deriving DecidableEq, Repr

mutual

/-- The `go/ast.Expr` node shapes relevant to both checkers: unary and binary
operations, parenthesized expressions, identifiers, basic literals, index,
selector, call and type-assertion expressions.  Any Go expression shape not
inspected by the checkers is represented by `CallExpr`/`TypeAssertExpr`
(both fall into the checkers' default branches). -/
inductive Expr where
  | UnaryExpr (op : Token) (x : Expr)
  | BinaryExpr (op : Token) (x y : Expr)
  | ParenExpr (x : Expr)
  | Ident (name : String)
  | BasicLit (value : String)
  | IndexExpr (x index : Expr)
  | SelectorExpr (x : Expr) (sel : String)
  | CallExpr (fn : Expr) (args : ExprList)
  | TypeAssertExpr (x : Expr)

/-- Argument lists of `ast.CallExpr` (`Args []ast.Expr`). -/
inductive ExprList where
  | nil
  | cons (head : Expr) (tail : ExprList)

end

deriving instance DecidableEq for Expr
deriving instance DecidableEq for ExprList

/-- `astutil.Unparen`: strips all enclosing parentheses. -/
def unparen : Expr → Expr
  | .ParenExpr x => unparen x
  | e => e

/-- `boolExprSimplifyChecker.unaryNot`: coerces a node into a unary `!`
expression if possible; the Go sentinel `nilUnaryExpr` returned on failure is
rendered as `none`, success yields the operand of the `!` node. -/
def unaryNot : Expr → Option Expr
  | .UnaryExpr .NOT x => some x
  | _ => none

/-- `boolExprSimplifyChecker.binaryExpr`: coerces a node into a binary
expression if possible; the Go sentinel `nilBinaryExpr` returned on failure is
rendered as `none`. -/
def binaryExpr : Expr → Option (Token × Expr × Expr)
  | .BinaryExpr op x y => some (op, x, y)
  | _ => none

/-- `boolExprSimplifyChecker.doubleNegation`: if the cursor node is a unary
`!` whose operand, after `astutil.Unparen`, is again a unary `!`, the node is
replaced (`cur.Replace`) by the unparenthesized operand of the inner `!`.
`none` means the rule did not fire. -/
def doubleNegation (n : Expr) : Option Expr :=
  match unaryNot n with
  | none => none
  | some x =>
    match unaryNot (unparen x) with
    | none => none
    | some y => some (unparen y)

/-- `boolExprSimplifyChecker.negatedEquals`: if the cursor node is a binary
`==` whose operands are both directly unary `!` nodes, both negations are
dropped in place (`x.X = neg1.X; x.Y = neg2.X`). `none` means the rule did
not fire. -/
def negatedEquals (n : Expr) : Option Expr :=
  match n with
  | .BinaryExpr .EQL a b =>
    match unaryNot a, unaryNot b with
    | some a0, some b0 => some (.BinaryExpr .EQL a0 b0)
    | _, _ => none
  | _ => none

/-- The operator replacement table of
`boolExprSimplifyChecker.invertComparison` (`switch cmp.Op`): `none` is the
`default` branch on which the rule does not fire. -/
def invertedOp : Token → Option Token
  | .EQL => some .NEQ
  | .NEQ => some .EQL
  | .LSS => some .GEQ
  | .GTR => some .LEQ
  | .LEQ => some .GTR
  | .GEQ => some .LSS
  | _ => none

/-- `boolExprSimplifyChecker.invertComparison`: if the cursor node is a unary
`!` whose operand, after `astutil.Unparen`, is a binary expression with an
invertible comparison operator, the operator is negated in place and the
cursor node replaced by the (unparenthesized) comparison. -/
def invertComparison (n : Expr) : Option Expr :=
  match unaryNot n with
  | none => none
  | some x =>
    match unparen x with
    | .BinaryExpr op l r =>
      match invertedOp op with
      | some op2 => some (.BinaryExpr op2 l r)
      | none => none
    | _ => none

/-- The post-visit function passed to `astutil.Apply` by
`boolExprSimplifyChecker.simplifyBool`: the three rules are tried in order
(`doubleNegation || negatedEquals || invertComparison || true`) and the first
that fires rewrites the node; otherwise the node is left unchanged. -/
def applyRules (n : Expr) : Expr :=
  match doubleNegation n with
  | some r => r
  | none =>
    match negatedEquals n with
    | some r => r
    | none =>
      match invertComparison n with
      | some r => r
      | none => n

mutual

/-- `boolExprSimplifyChecker.simplifyBool`: `astutil.Apply` with a post
function, i.e. a post-order traversal in which every node is rewritten by
`applyRules` after its children have been processed; a replacement node is
not itself re-traversed. -/
def simplifyBool : Expr → Expr
  | .UnaryExpr op x => applyRules (.UnaryExpr op (simplifyBool x))
  | .BinaryExpr op x y => applyRules (.BinaryExpr op (simplifyBool x) (simplifyBool y))
  | .ParenExpr x => applyRules (.ParenExpr (simplifyBool x))
  | .Ident name => applyRules (.Ident name)
  | .BasicLit v => applyRules (.BasicLit v)
  | .IndexExpr x i => applyRules (.IndexExpr (simplifyBool x) (simplifyBool i))
  | .SelectorExpr x s => applyRules (.SelectorExpr (simplifyBool x) s)
  | .CallExpr fn args => applyRules (.CallExpr (simplifyBool fn) (simplifyBoolList args))
  | .TypeAssertExpr x => applyRules (.TypeAssertExpr (simplifyBool x))

/-- Post-order traversal of `ast.CallExpr` argument lists. -/
def simplifyBoolList : ExprList → ExprList
  | .nil => .nil
  | .cons a as => .cons (simplifyBool a) (simplifyBoolList as)

end

mutual

/-- `astequal.Expr` (go-toolsmith/astequal): strict structural equality of
two expression trees — same node kind, same operators / names / literal
values, recursively equal children.  A `ParenExpr` is only ever equal to a
`ParenExpr`. -/
def astequalExpr : Expr → Expr → Bool
  | .UnaryExpr op x, .UnaryExpr op2 x2 => op == op2 && astequalExpr x x2
  | .BinaryExpr op x y, .BinaryExpr op2 x2 y2 =>
    op == op2 && astequalExpr x x2 && astequalExpr y y2
  | .ParenExpr x, .ParenExpr x2 => astequalExpr x x2
  | .Ident n, .Ident n2 => n == n2
  | .BasicLit v, .BasicLit v2 => v == v2
  | .IndexExpr x i, .IndexExpr x2 i2 => astequalExpr x x2 && astequalExpr i i2
  | .SelectorExpr x s, .SelectorExpr x2 s2 => astequalExpr x x2 && s == s2
  | .CallExpr f args, .CallExpr f2 args2 => astequalExpr f f2 && astequalList args args2
  | .TypeAssertExpr x, .TypeAssertExpr x2 => astequalExpr x x2
  | _, _ => false

/-- `astequal` on `ast.CallExpr` argument slices: equal length and pointwise
equal elements. -/
def astequalList : ExprList → ExprList → Bool
  | .nil, .nil => true
  | .cons a as, .cons b bs => astequalExpr a b && astequalList as bs
  | _, _ => false

end

mutual

/-- `astcopy.Expr` (go-toolsmith/astcopy): returns a deep copy of the
expression tree. -/
def astcopyExpr : Expr → Expr
  | .UnaryExpr op x => .UnaryExpr op (astcopyExpr x)
  | .BinaryExpr op x y => .BinaryExpr op (astcopyExpr x) (astcopyExpr y)
  | .ParenExpr x => .ParenExpr (astcopyExpr x)
  | .Ident n => .Ident n
  | .BasicLit v => .BasicLit v
  | .IndexExpr x i => .IndexExpr (astcopyExpr x) (astcopyExpr i)
  | .SelectorExpr x s => .SelectorExpr (astcopyExpr x) s
  | .CallExpr f args => .CallExpr (astcopyExpr f) (astcopyList args)
  | .TypeAssertExpr x => .TypeAssertExpr (astcopyExpr x)

/-- Deep copy of `ast.CallExpr` argument lists. -/
def astcopyList : ExprList → ExprList
  | .nil => .nil
  | .cons a as => .cons (astcopyExpr a) (astcopyList as)

end

/-- A rewrite warning of `boolExprSimplifyChecker.warn`: carries the cause
expression and the suggested simplification
(`"can simplify x to y"`). -/
structure RewriteWarning where
  cause : Expr
  suggestion : Expr
  deriving DecidableEq

/-- The mutable state of `boolExprSimplifyChecker`: the `cause` field holding
the last warning cause (initially nil), plus the stream of warnings emitted
to the `ctx.Warn` sink. -/
structure SimplifyState where
  cause : Option Expr
  warnings : List RewriteWarning
  deriving DecidableEq

/-- `boolExprSimplifyChecker.warn`: records the node as the last warning
cause and emits one warning carrying the cause and the suggestion. -/
def warn (s : SimplifyState) (cause suggestion : Expr) : SimplifyState :=
  { cause := some cause, warnings := s.warnings ++ [⟨cause, suggestion⟩] }

/-- `boolExprSimplifyChecker.EnterChilds`: `return c.cause != x`.  Go
compares the two `ast.Node` interface values for identity; in this pure
embedding node identity is rendered as structural equality of the trees. -/
def enterChilds (s : SimplifyState) (x : Expr) : Bool :=
  !(s.cause == some x)

/-- `boolExprSimplifyChecker.VisitExpr`: simplifies a deep copy of the
expression and warns iff the result is not `astequal` to the original. -/
def visitExpr (s : SimplifyState) (x : Expr) : SimplifyState :=
  let y := simplifyBool (astcopyExpr x)
  if astequalExpr x y then s else warn s x y

/-- The `opSet` built by `dupSubExprChecker.Init`: the binary operators that
do not make sense with identical LHS and RHS. -/
def opSet : Token → Bool
  | .LOR | .LAND | .OR | .AND | .XOR | .LSS | .GTR | .AND_NOT | .REM
  | .EQL | .NEQ | .LEQ | .GEQ | .QUO | .SUB => true
  | _ => false

/-- The `floatOpsSet` built by `dupSubExprChecker.Init`: the operators whose
`float` flag is set in the `ops` table (float arguments require special
care). -/
def floatOpsSet : Token → Bool
  | .EQL | .NEQ | .LEQ | .GEQ | .QUO | .SUB => true
  | _ => false

/-- The `go/types` type of an expression as far as `resultIsFloat` inspects
it: a `*types.Basic` with its `Info()` flag word, a `*types.Named` defined
type, or any other (non-basic) type. -/
inductive GoType where
  | basic (info : Nat)
  | named (underlying : GoType)
  | nonBasic
  deriving DecidableEq

/-- The `go/types.IsFloat` basic-info flag bit. -/
def IsFloat : Nat := 8

/-- The Type Oracle (`c.ctx.typesInfo.TypeOf`): `none` models `TypeOf`
returning nil when no type information is available. -/
def TypeOracle : Type := Expr → Option GoType

/-- `dupSubExprChecker.resultIsFloat`: the type assertion
`TypeOf(expr).(*types.Basic)` followed by `typ.Info()&types.IsFloat != 0`;
a failed assertion (nil or non-basic type) yields `false`. -/
def resultIsFloat (typesInfo : TypeOracle) (expr : Expr) : Bool :=
  match typesInfo expr with
  | some (.basic info) => info &&& IsFloat != 0
  | _ => false

/-- `dupSubExprChecker.isSafe`: the conservative whitelist of expression
shapes whose duplication is observably safe. -/
def isSafe : Expr → Bool
  | .BinaryExpr _ x y => isSafe x && isSafe y
  | .UnaryExpr op x => op != .ARROW && isSafe x
  | .BasicLit _ => true
  | .Ident _ => true
  | .IndexExpr x i => isSafe x && isSafe i
  | .SelectorExpr x _ => isSafe x
  | .ParenExpr x => isSafe x
  | _ => false

/-- A warning of `dupSubExprChecker.warn`: carries the cause node and its
operator (`"suspicious identical LHS and RHS for Op operator"`). -/
structure DupWarning where
  cause : Expr
  op : Token
  deriving DecidableEq

/-- `dupSubExprChecker.checkBinaryExpr` on the binary node `x op y`:
operator-set gate, float exception on the left operand, then safety and
`astequal` of the operands; `some` is the single warning passed to
`c.warn`. -/
def checkBinaryExpr (typesInfo : TypeOracle) (op : Token) (x y : Expr) :
    Option DupWarning :=
  if !(opSet op) then none
  else if resultIsFloat typesInfo x && floatOpsSet op then none
  else if isSafe (.BinaryExpr op x y) && opSet op && astequalExpr x y then
    some ⟨.BinaryExpr op x y, op⟩
  else none

/-- `dupSubExprChecker.VisitExpr`: only binary expressions are checked. -/
def dupVisitExpr (typesInfo : TypeOracle) : Expr → Option DupWarning
  | .BinaryExpr op x y => checkBinaryExpr typesInfo op x y
  | _ => none

/-! ## Supporting lemmas -/

mutual

/-- `astequal.Expr` decides exactly the (strict, parenthesization-preserving)
equality of expression trees. -/
theorem astequal_iff : (a b : Expr) → (astequalExpr a b = true ↔ a = b)
  | .UnaryExpr op x, b => by
    cases b <;> simp [astequalExpr]
    rename_i op2 x2
    simp [astequal_iff x x2]
  | .BinaryExpr op x y, b => by
    cases b <;> simp [astequalExpr]
    rename_i op2 x2 y2
    simp [astequal_iff x x2, astequal_iff y y2, and_assoc]
  | .ParenExpr x, b => by
    cases b <;> simp [astequalExpr]
    rename_i x2
    rw [astequal_iff x x2]
  | .Ident n, b => by
    cases b <;> simp [astequalExpr]
  | .BasicLit v, b => by
    cases b <;> simp [astequalExpr]
  | .IndexExpr x i, b => by
    cases b <;> simp [astequalExpr]
    rename_i x2 i2
    rw [astequal_iff x x2, astequal_iff i i2]
  | .SelectorExpr x s, b => by
    cases b <;> simp [astequalExpr]
    rename_i x2 s2
    simp [astequal_iff x x2]
  | .CallExpr f args, b => by
    cases b <;> simp [astequalExpr]
    rename_i f2 args2
    rw [astequal_iff f f2, astequalList_iff args args2]
  | .TypeAssertExpr x, b => by
    cases b <;> simp [astequalExpr]
    rename_i x2
    rw [astequal_iff x x2]

/-- `astequal` on argument lists decides equality of the lists. -/
theorem astequalList_iff : (as bs : ExprList) → (astequalList as bs = true ↔ as = bs)
  | .nil, bs => by
    cases bs <;> simp [astequalList]
  | .cons a as, bs => by
    cases bs <;> simp [astequalList]
    rename_i b bs
    rw [astequal_iff a b, astequalList_iff as bs]

end

/-- `astequal.Expr` is reflexive. -/
theorem astequal_refl (a : Expr) : astequalExpr a a = true :=
  (astequal_iff a a).mpr rfl

mutual

/-- The deep copy of `astcopy.Expr` is structurally identical to its
argument. -/
theorem astcopy_eq : (a : Expr) → astcopyExpr a = a
  | .UnaryExpr op x => by simp [astcopyExpr, astcopy_eq x]
  | .BinaryExpr op x y => by simp [astcopyExpr, astcopy_eq x, astcopy_eq y]
  | .ParenExpr x => by simp [astcopyExpr, astcopy_eq x]
  | .Ident n => rfl
  | .BasicLit v => rfl
  | .IndexExpr x i => by simp [astcopyExpr, astcopy_eq x, astcopy_eq i]
  | .SelectorExpr x s => by simp [astcopyExpr, astcopy_eq x]
  | .CallExpr f args => by simp [astcopyExpr, astcopy_eq f, astcopyList_eq args]
  | .TypeAssertExpr x => by simp [astcopyExpr, astcopy_eq x]

/-- Deep copy of argument lists is the identity. -/
theorem astcopyList_eq : (as : ExprList) → astcopyList as = as
  | .nil => rfl
  | .cons a as => by simp [astcopyList, astcopy_eq a, astcopyList_eq as]

end

/-- `astutil.Unparen` is the identity on non-parenthesized nodes. -/
theorem unparen_eq_self (x : Expr) (h : ∀ y, x ≠ Expr.ParenExpr y) :
    unparen x = x := by
  cases x
  case ParenExpr z => exact absurd rfl (h z)
  all_goals rfl

/-- `unaryNot` succeeds exactly on unary `!` nodes. -/
theorem unaryNot_some_iff (x a : Expr) :
    unaryNot x = some a ↔ x = .UnaryExpr .NOT a := by
  cases x with
  | UnaryExpr op z => cases op <;> simp [unaryNot]
  | BinaryExpr op z w => simp [unaryNot]
  | ParenExpr z => simp [unaryNot]
  | Ident n => simp [unaryNot]
  | BasicLit v => simp [unaryNot]
  | IndexExpr z i => simp [unaryNot]
  | SelectorExpr z s => simp [unaryNot]
  | CallExpr f args => simp [unaryNot]
  | TypeAssertExpr z => simp [unaryNot]

/-- The operator inversion table is an involution. -/
theorem invertedOp_invol (op op2 : Token) (h : invertedOp op = some op2) :
    invertedOp op2 = some op := by
  cases op <;> simp [invertedOp] at h <;> subst h <;> rfl

/-- No rule ever fires on a `ParenExpr` node itself. -/
theorem applyRules_paren (e : Expr) : applyRules (.ParenExpr e) = .ParenExpr e := rfl

/-! ## Claim theorems -/

/-- C4: for every unary logical-not node whose operand, after unwrapping
parens, is a binary comparison, the rewrite engine replaces it with the
comparison under the inverted operator and drops the negation, following
exactly the table `==→!=`, `!=→==`, `<→>=`, `>→<=`, `<=→>`, `>=→<`; for any
other inner operator the node is left untouched. -/
theorem invertComparison_table :
    (∀ (x : Expr) (op op2 : Token) (l r : Expr),
      unparen x = .BinaryExpr op l r → invertedOp op = some op2 →
      applyRules (.UnaryExpr .NOT x) = .BinaryExpr op2 l r)
    ∧ (∀ (x : Expr) (op : Token) (l r : Expr),
      unparen x = .BinaryExpr op l r → invertedOp op = none →
      applyRules (.UnaryExpr .NOT x) = .UnaryExpr .NOT x)
    ∧ invertedOp .EQL = some .NEQ ∧ invertedOp .NEQ = some .EQL
    ∧ invertedOp .LSS = some .GEQ ∧ invertedOp .GTR = some .LEQ
    ∧ invertedOp .LEQ = some .GTR ∧ invertedOp .GEQ = some .LSS := by
  refine ⟨?_, ?_, rfl, rfl, rfl, rfl, rfl, rfl⟩
  · intro x op op2 l r hup hinv
    simp [applyRules, doubleNegation, negatedEquals, invertComparison, unaryNot, hup, hinv]
  · intro x op l r hup hinv
    simp [applyRules, doubleNegation, negatedEquals, invertComparison, unaryNot, hup, hinv]

/-- C4 witness: `!((a < b))` is rewritten to `a >= b`, while `!((a + b))`
is left untouched. -/
theorem invertComparison_table_witness :
    applyRules (.UnaryExpr .NOT (.ParenExpr
        (.BinaryExpr .LSS (.Ident "a") (.Ident "b"))))
      = .BinaryExpr .GEQ (.Ident "a") (.Ident "b")
    ∧ applyRules (.UnaryExpr .NOT (.ParenExpr
        (.BinaryExpr .ADD (.Ident "a") (.Ident "b"))))
      = .UnaryExpr .NOT (.ParenExpr (.BinaryExpr .ADD (.Ident "a") (.Ident "b"))) :=
  ⟨invertComparison_table.1 _ .LSS .GEQ _ _ rfl rfl,
   invertComparison_table.2.1 _ .ADD _ _ rfl rfl⟩

/-- C10: `resultIsFloat e` is true iff the oracle's `TypeOf e` is a basic
type whose info flags include `IsFloat`; a defined (named) floating-point
type, or any non-basic type, is classified as not floating-point, so its
duplicated `==`-family expressions are still flagged. -/
theorem resultIsFloat_characterization :
    (∀ (ti : TypeOracle) (e : Expr),
      resultIsFloat ti e = true ↔
        ∃ info, ti e = some (.basic info) ∧ info &&& IsFloat ≠ 0)
    ∧ (∀ (ti : TypeOracle) (e : Expr) (u : GoType),
      ti e = some (.named u) → resultIsFloat ti e = false)
    ∧ (∀ (ti : TypeOracle) (e : Expr),
      ti e = some .nonBasic → resultIsFloat ti e = false)
    ∧ (∀ (ti : TypeOracle) (op : Token) (x : Expr),
      floatOpsSet op = true → opSet op = true → isSafe x = true →
      resultIsFloat ti x = false →
      (checkBinaryExpr ti op x x).isSome = true) := by
  refine ⟨?_, ?_, ?_, ?_⟩
  · intro ti e
    cases h : ti e with
    | none => simp [resultIsFloat, h]
    | some t => cases t <;> simp [resultIsFloat, h]
  · intro ti e u h
    simp [resultIsFloat, h]
  · intro ti e h
    simp [resultIsFloat, h]
  · intro ti op x hfl hop hsafe hnf
    simp [checkBinaryExpr, hop, hnf, isSafe, hsafe, astequal_refl]

/-- C10 witness: an identifier whose static type is a defined (named) type
with floating-point underlying type is still flagged for `x == x`. -/
theorem resultIsFloat_characterization_witness :
    (checkBinaryExpr (fun _ => some (.named (.basic 8))) .EQL
      (.Ident "x") (.Ident "x")).isSome = true :=
  resultIsFloat_characterization.2.2.2 _ .EQL (.Ident "x") rfl rfl rfl
    (resultIsFloat_characterization.2.1 _ _ (.basic 8) rfl)

/-- C7: for `==`, `!=`, `<=`, `>=`, `/`, `-` a duplicated-operand warning is
emitted only when the left operand's static type is not floating-point;
an absent type is treated as not floating-point (no suppression); the other
nine operators of the detection set are flagged regardless of type. -/
theorem float_suppression :
    (∀ (ti : TypeOracle) (op : Token) (x y : Expr),
      floatOpsSet op = true → resultIsFloat ti x = true →
      checkBinaryExpr ti op x y = none)
    ∧ (∀ (ti : TypeOracle) (x : Expr), ti x = none → resultIsFloat ti x = false)
    ∧ (∀ (ti ti' : TypeOracle) (op : Token) (x y : Expr), floatOpsSet op = false →
      checkBinaryExpr ti op x y = checkBinaryExpr ti' op x y)
    ∧ (∀ op : Token, floatOpsSet op = true ↔
        (op = .EQL ∨ op = .NEQ ∨ op = .LEQ ∨ op = .GEQ ∨ op = .QUO ∨ op = .SUB))
    ∧ (∀ op : Token,
        (op = .LOR ∨ op = .LAND ∨ op = .OR ∨ op = .AND ∨ op = .XOR ∨
         op = .LSS ∨ op = .GTR ∨ op = .AND_NOT ∨ op = .REM) →
        opSet op = true ∧ floatOpsSet op = false) := by
  refine ⟨?_, ?_, ?_, ?_, ?_⟩
  · intro ti op x y hfl hf
    simp [checkBinaryExpr, hfl, hf]
  · intro ti x h
    simp [resultIsFloat, h]
  · intro ti ti' op x y hfl
    simp [checkBinaryExpr, hfl]
  · intro op
    cases op <;> simp [floatOpsSet]
  · intro op h
    rcases h with rfl | rfl | rfl | rfl | rfl | rfl | rfl | rfl | rfl <;>
      exact ⟨rfl, rfl⟩

/-- C7 witness: a float-typed `x == x` is suppressed; an untyped `x == x`
and a float-typed `x < x` are not. -/
theorem float_suppression_witness :
    checkBinaryExpr (fun _ => some (.basic 8)) .EQL (.Ident "x") (.Ident "x") = none
    ∧ resultIsFloat (fun _ => none) (.Ident "x") = false
    ∧ checkBinaryExpr (fun _ => some (.basic 8)) .LSS (.Ident "x") (.Ident "x")
      = checkBinaryExpr (fun _ => none) .LSS (.Ident "x") (.Ident "x") :=
  ⟨float_suppression.1 _ .EQL _ _ rfl rfl,
   float_suppression.2.1 _ _ rfl,
   float_suppression.2.2.1 _ _ .LSS _ _ rfl⟩

mutual

/-- Modelled from the spec: §4.1 asks for a semantic equality that is
paren-transparent (`Paren{x}` and `x` compare equal) for the
Duplicate-Operand Detector; this normal form removes every `ParenExpr`
wrapper. -/
def stripParens : Expr → Expr
  | .ParenExpr x => stripParens x
  | .UnaryExpr op x => .UnaryExpr op (stripParens x)
  | .BinaryExpr op x y => .BinaryExpr op (stripParens x) (stripParens y)
  | .Ident n => .Ident n
  | .BasicLit v => .BasicLit v
  | .IndexExpr x i => .IndexExpr (stripParens x) (stripParens i)
  | .SelectorExpr x s => .SelectorExpr (stripParens x) s
  | .CallExpr f args => .CallExpr (stripParens f) (stripParensList args)
  | .TypeAssertExpr x => .TypeAssertExpr (stripParens x)

/-- Paren removal on argument lists. -/
def stripParensList : ExprList → ExprList
  | .nil => .nil
  | .cons a as => .cons (stripParens a) (stripParensList as)

end

/-- Modelled from the spec: the paren-transparent ("semantic") equality of
§4.1, which the spec says the Duplicate-Operand Detector uses. -/
def semEqualSpec (a b : Expr) : Bool :=
  stripParens a == stripParens b

/-- C1 counterexample: for `(a) == a` every condition of the claim holds —
the operator is in the detection set, the float exception does not suppress
it, the operands are semantically equal under paren-transparent equality and
`isSafe` holds — yet `checkBinaryExpr` emits no warning, because the code
compares the operands with `astequal.Expr`, which is strict and treats
`(a)` and `a` as different. -/
theorem checkBinaryExpr_paren_transparent_cex :
    opSet .EQL = true
    ∧ semEqualSpec (.ParenExpr (.Ident "a")) (.Ident "a") = true
    ∧ resultIsFloat (fun _ => none) (.ParenExpr (.Ident "a")) = false
    ∧ isSafe (.BinaryExpr .EQL (.ParenExpr (.Ident "a")) (.Ident "a")) = true
    ∧ checkBinaryExpr (fun _ => none) .EQL (.ParenExpr (.Ident "a")) (.Ident "a")
      = none :=
  ⟨rfl, rfl, rfl, rfl, rfl⟩

/-- C1 (amended): the Duplicate-Operand Detector emits a warning iff the
operator is in the detection set, the float exception does not suppress it,
`isSafe` holds for the node and the left operand is *strictly* (structurally,
parenthesization included) equal to the right operand; exactly one warning —
rendered by the `some` case — is emitted per qualifying binary node. -/
theorem checkBinaryExpr_warn_iff (ti : TypeOracle) (op : Token) (x y : Expr) :
    (checkBinaryExpr ti op x y).isSome = true ↔
      (opSet op = true
        ∧ ¬(resultIsFloat ti x = true ∧ floatOpsSet op = true)
        ∧ isSafe (.BinaryExpr op x y) = true
        ∧ x = y) := by
  rw [← astequal_iff]
  simp only [checkBinaryExpr]
  split_ifs with h1 h2 h3 <;>
    simp_all [Bool.and_eq_true, not_and]

/-- C1 witness: `x < x` on untyped identifiers qualifies and produces the
warning. -/
theorem checkBinaryExpr_warn_iff_witness :
    (checkBinaryExpr (fun _ => none) .LSS (.Ident "x") (.Ident "x")).isSome
      = true :=
  (checkBinaryExpr_warn_iff (fun _ => none) .LSS (.Ident "x") (.Ident "x")).mpr
    ⟨rfl, by decide, rfl, rfl⟩

/-- C3 counterexample: in `(!a) == !b` both operands are, after unwrapping
parens, unary logical-nots, yet the engine leaves the whole expression
unchanged: `negatedEquals` inspects the operands without unwrapping
parentheses. -/
theorem negatedEquals_paren_cex :
    unparen (.ParenExpr (.UnaryExpr .NOT (.Ident "a"))) = .UnaryExpr .NOT (.Ident "a")
    ∧ simplifyBool (.BinaryExpr .EQL
        (.ParenExpr (.UnaryExpr .NOT (.Ident "a"))) (.UnaryExpr .NOT (.Ident "b")))
      = .BinaryExpr .EQL
        (.ParenExpr (.UnaryExpr .NOT (.Ident "a"))) (.UnaryExpr .NOT (.Ident "b")) :=
  ⟨rfl, rfl⟩

/-- C3 (amended): `negatedEquals` rewrites a binary `==` node to `==` of the
two un-negated operands exactly when both operands are *directly* (without
unwrapping parens) unary logical-nots; it never fires on any other binary
operator, and at the whole-engine level `!a == !b` becomes `a == b` while
`!a != !b` is left unchanged. -/
theorem negatedEquals_amended :
    (∀ a b : Expr,
      negatedEquals (.BinaryExpr .EQL (.UnaryExpr .NOT a) (.UnaryExpr .NOT b))
        = some (.BinaryExpr .EQL a b))
    ∧ (∀ (x y : Expr),
      (negatedEquals (.BinaryExpr .EQL x y)).isSome = true ↔
        ((∃ a, x = .UnaryExpr .NOT a) ∧ (∃ b, y = .UnaryExpr .NOT b)))
    ∧ (∀ (op : Token) (x y : Expr), op ≠ .EQL →
      negatedEquals (.BinaryExpr op x y) = none)
    ∧ (∀ n1 n2 : String,
      simplifyBool (.BinaryExpr .EQL
          (.UnaryExpr .NOT (.Ident n1)) (.UnaryExpr .NOT (.Ident n2)))
        = .BinaryExpr .EQL (.Ident n1) (.Ident n2))
    ∧ (∀ n1 n2 : String,
      simplifyBool (.BinaryExpr .NEQ
          (.UnaryExpr .NOT (.Ident n1)) (.UnaryExpr .NOT (.Ident n2)))
        = .BinaryExpr .NEQ (.UnaryExpr .NOT (.Ident n1)) (.UnaryExpr .NOT (.Ident n2))) := by
  refine ⟨?_, ?_, ?_, ?_, ?_⟩
  · intro a b
    rfl
  · intro x y
    cases hx : unaryNot x <;> cases hy : unaryNot y <;>
      simp [negatedEquals, hx, hy, ← unaryNot_some_iff]
  · intro op x y h
    cases op <;> first | exact absurd rfl h | rfl
  · intro n1 n2
    rfl
  · intro n1 n2
    rfl

/-- C3 witness: the rule fires on `!a == !b` and refuses `!a != !b`. -/
theorem negatedEquals_amended_witness :
    negatedEquals (.BinaryExpr .EQL
        (.UnaryExpr .NOT (.Ident "a")) (.UnaryExpr .NOT (.Ident "b")))
      = some (.BinaryExpr .EQL (.Ident "a") (.Ident "b"))
    ∧ negatedEquals (.BinaryExpr .NEQ
        (.UnaryExpr .NOT (.Ident "a")) (.UnaryExpr .NOT (.Ident "b"))) = none :=
  ⟨negatedEquals_amended.1 (.Ident "a") (.Ident "b"),
   negatedEquals_amended.2.2.1 .NEQ _ _ (by decide)⟩

/-- C2 counterexample: for the subtree `x = (a)` — which itself is a
parenthesized expression — `simplify(!(!(x)))` yields `a`, not `x`:
`cur.Replace(astutil.Unparen(neg2.X))` strips the parentheses belonging to
`x` as well, so the result is not strictly equal to `x`. -/
theorem doubleNegation_paren_cex :
    simplifyBool (.UnaryExpr .NOT (.ParenExpr (.UnaryExpr .NOT
        (.ParenExpr (.ParenExpr (.Ident "a"))))))
      = .Ident "a"
    ∧ Expr.Ident "a" ≠ .ParenExpr (.Ident "a") :=
  ⟨rfl, by decide⟩

/-- C2 (amended): `simplify(!(!(x)))` is strictly equal to `x` for every
subtree `x` that one simplify pass leaves unchanged and whose root is
neither a parenthesized expression (a top-level paren of `x` is stripped by
`astutil.Unparen`) nor a unary logical-not (which pairs with the inner
negation first); and `doubleNegation` fires at a node exactly when the node
itself is a unary logical-not whose operand, after unwrapping parens, is a
unary logical-not. -/
theorem doubleNegation_amended :
    (∀ x : Expr, simplifyBool x = x →
      (∀ y, x ≠ .ParenExpr y) → (∀ y, x ≠ .UnaryExpr .NOT y) →
      simplifyBool (.UnaryExpr .NOT (.ParenExpr (.UnaryExpr .NOT (.ParenExpr x))))
        = x)
    ∧ (∀ n : Expr, (doubleNegation n).isSome = true ↔
        ∃ a b, n = .UnaryExpr .NOT a ∧ unparen a = .UnaryExpr .NOT b) := by
  constructor
  · intro x hfix hnp hnn
    simp only [simplifyBool, applyRules_paren]
    rw [hfix]
    cases x with
    | ParenExpr z => exact absurd rfl (hnp z)
    | UnaryExpr op z => cases op <;> first | exact absurd rfl (hnn z) | rfl
    | BinaryExpr op l r => cases op <;> rfl
    | Ident n => rfl
    | BasicLit v => rfl
    | IndexExpr z i => rfl
    | SelectorExpr z s => rfl
    | CallExpr f args => rfl
    | TypeAssertExpr z => rfl
  · intro n
    cases hn : unaryNot n with
    | none =>
      simp [doubleNegation, hn, ← unaryNot_some_iff]
    | some a =>
      cases ha : unaryNot (unparen a) with
      | none =>
        simp only [doubleNegation, hn, ha, Option.isSome_none]
        rw [unaryNot_some_iff] at hn
        subst hn
        constructor
        · intro h
          exact absurd h (by simp)
        · rintro ⟨a2, b, ha2, hb⟩
          cases ha2
          rw [← unaryNot_some_iff] at hb
          rw [hb] at ha
          exact Option.noConfusion ha
      | some b =>
        simp only [doubleNegation, hn, ha, Option.isSome_some, true_iff]
        rw [unaryNot_some_iff] at hn ha
        exact ⟨a, b, hn, ha⟩

/-- C2 witness: for `x = a` (a bare identifier) the double negation
`!(!(a))` simplifies to exactly `a`, and the rule fires on `!(!(a))`. -/
theorem doubleNegation_amended_witness :
    simplifyBool (.UnaryExpr .NOT (.ParenExpr (.UnaryExpr .NOT
        (.ParenExpr (.Ident "a")))))
      = .Ident "a"
    ∧ (doubleNegation (.UnaryExpr .NOT (.ParenExpr (.UnaryExpr .NOT
        (.ParenExpr (.Ident "a")))))).isSome = true :=
  ⟨doubleNegation_amended.1 (.Ident "a") rfl
      (fun _ h => Expr.noConfusion h) (fun _ h => Expr.noConfusion h),
   (doubleNegation_amended.2 _).mpr
      ⟨.ParenExpr (.UnaryExpr .NOT (.ParenExpr (.Ident "a"))),
       .ParenExpr (.Ident "a"), rfl, rfl⟩⟩

/-- C5: `VisitExpr` produces a rewrite warning — carrying the original and
the once-simplified form — if and only if one simplify pass changes the
expression under strict equality (`astequal`, which decides exactly
structural equality); the result is not re-simplified: the suggestion is
`simplifyBool x` itself. -/
theorem visitExpr_warn_iff :
    (∀ (s : SimplifyState) (x : Expr),
      (visitExpr s x).warnings
        = s.warnings ++ (if simplifyBool x = x then [] else [⟨x, simplifyBool x⟩]))
    ∧ (∀ (s : SimplifyState) (x : Expr), simplifyBool x = x → visitExpr s x = s)
    ∧ (∀ (s : SimplifyState) (x : Expr), simplifyBool x ≠ x →
      visitExpr s x = warn s x (simplifyBool x))
    ∧ (∀ a b : Expr, astequalExpr a b = true ↔ a = b) := by
  have hv : ∀ (s : SimplifyState) (x : Expr),
      visitExpr s x = if simplifyBool x = x then s else warn s x (simplifyBool x) := by
    intro s x
    unfold visitExpr
    rw [astcopy_eq]
    by_cases h : simplifyBool x = x
    · rw [if_pos ((astequal_iff _ _).mpr h.symm), if_pos h]
    · rw [if_neg, if_neg h]
      intro hc
      exact h ((astequal_iff _ _).mp hc).symm
  refine ⟨?_, ?_, ?_, astequal_iff⟩
  · intro s x
    rw [hv]
    by_cases h : simplifyBool x = x
    · simp [h]
    · simp [h, warn]
  · intro s x h
    rw [hv, if_pos h]
  · intro s x h
    rw [hv, if_neg h]

/-- C5 witness: `!(!(a))` triggers exactly one warning suggesting `a`;
an already-simple identifier triggers none. -/
theorem visitExpr_warn_iff_witness :
    (visitExpr ⟨none, []⟩ (.UnaryExpr .NOT (.ParenExpr (.UnaryExpr .NOT
        (.ParenExpr (.Ident "a")))))).warnings
      = [⟨.UnaryExpr .NOT (.ParenExpr (.UnaryExpr .NOT (.ParenExpr (.Ident "a")))),
          .Ident "a"⟩]
    ∧ visitExpr ⟨none, []⟩ (.Ident "a") = ⟨none, []⟩ :=
  ⟨visitExpr_warn_iff.1 ⟨none, []⟩ _,
   visitExpr_warn_iff.2.1 ⟨none, []⟩ _ rfl⟩

mutual

/-- Modelled from the spec: the external Driver/Registry of §6 "decides
which expressions to visit": it walks the tree, calling
`visitExpression(node)` on each node and descending into the children only
when `shouldDescendInto(node)` (i.e. `EnterChilds`) holds. -/
def walkExpr (s : SimplifyState) (x : Expr) : SimplifyState :=
  let s1 := visitExpr s x
  if enterChilds s1 x then walkChildren s1 x else s1

/-- Modelled from the spec: the driver's descent into the children of a
node, left to right. -/
def walkChildren (s : SimplifyState) : Expr → SimplifyState
  | .UnaryExpr _ x => walkExpr s x
  | .BinaryExpr _ x y => walkExpr (walkExpr s x) y
  | .ParenExpr x => walkExpr s x
  | .Ident _ => s
  | .BasicLit _ => s
  | .IndexExpr x i => walkExpr (walkExpr s x) i
  | .SelectorExpr x _ => walkExpr s x
  | .CallExpr f args => walkArgs (walkExpr s f) args
  | .TypeAssertExpr x => walkExpr s x

/-- Modelled from the spec: the driver's descent into call arguments. -/
def walkArgs (s : SimplifyState) : ExprList → SimplifyState
  | .nil => s
  | .cons a as => walkArgs (walkExpr s a) as

end

/-- C6: after a warning is produced for node `n`, `EnterChilds n` is false
for that exact node, so the driver does not descend below `n` (no further
warnings under it in this traversal); for every node that is not the cause
of the most recent warning, `EnterChilds` returns true. -/
theorem enterChilds_gating :
    (∀ (s : SimplifyState) (x y : Expr), enterChilds (warn s x y) x = false)
    ∧ (∀ (s : SimplifyState) (x : Expr), s.cause ≠ some x → enterChilds s x = true)
    ∧ (∀ (s : SimplifyState) (x : Expr), simplifyBool x ≠ x →
      walkExpr s x = visitExpr s x) := by
  refine ⟨?_, ?_, ?_⟩
  · intro s x y
    simp [enterChilds, warn]
  · intro s x h
    simpa [enterChilds] using h
  · intro s x h
    have hv : visitExpr s x = warn s x (simplifyBool x) := by
      unfold visitExpr
      rw [astcopy_eq, if_neg]
      intro hc
      exact h ((astequal_iff _ _).mp hc).symm
    unfold walkExpr
    rw [hv]
    simp [enterChilds, warn]

/-- C6 witness: a warning-triggering node blocks the descent; a fresh state
lets the driver descend. -/
theorem enterChilds_gating_witness :
    walkExpr ⟨none, []⟩ (.UnaryExpr .NOT (.ParenExpr (.UnaryExpr .NOT
        (.ParenExpr (.Ident "a")))))
      = visitExpr ⟨none, []⟩ (.UnaryExpr .NOT (.ParenExpr (.UnaryExpr .NOT
        (.ParenExpr (.Ident "a")))))
    ∧ enterChilds ⟨none, []⟩ (.Ident "a") = true :=
  ⟨enterChilds_gating.2.2 ⟨none, []⟩ _ (by decide),
   enterChilds_gating.2.1 ⟨none, []⟩ _ (by decide)⟩

/-- The whitelisted shapes the claim describes: literals and identifiers;
binary nodes with both operands safe; unary nodes whose operator is not the
channel-receive operator with safe operand; index nodes with safe base and
index; selector and parenthesized nodes with safe inner. -/
inductive SafeShape : Expr → Prop where
  | basicLit (v : String) : SafeShape (.BasicLit v)
  | ident (n : String) : SafeShape (.Ident n)
  | binary (op : Token) {x y : Expr} :
      SafeShape x → SafeShape y → SafeShape (.BinaryExpr op x y)
  | unary {op : Token} {x : Expr} :
      op ≠ .ARROW → SafeShape x → SafeShape (.UnaryExpr op x)
  | indexE {x i : Expr} :
      SafeShape x → SafeShape i → SafeShape (.IndexExpr x i)
  | selector {x : Expr} (s : String) : SafeShape x → SafeShape (.SelectorExpr x s)
  | paren {x : Expr} : SafeShape x → SafeShape (.ParenExpr x)

/-- `isSafe` decides exactly the whitelisted shapes. -/
theorem isSafe_iff : (e : Expr) → (isSafe e = true ↔ SafeShape e)
  | .UnaryExpr op x => by
    rw [isSafe]
    constructor
    · intro h
      rw [Bool.and_eq_true, bne_iff_ne] at h
      exact .unary h.1 ((isSafe_iff x).mp h.2)
    · intro h
      cases h with
      | unary hop hx =>
        rw [Bool.and_eq_true, bne_iff_ne]
        exact ⟨hop, (isSafe_iff x).mpr hx⟩
  | .BinaryExpr op x y => by
    rw [isSafe]
    constructor
    · intro h
      rw [Bool.and_eq_true] at h
      exact .binary op ((isSafe_iff x).mp h.1) ((isSafe_iff y).mp h.2)
    · intro h
      cases h with
      | binary _ hx hy =>
        rw [Bool.and_eq_true]
        exact ⟨(isSafe_iff x).mpr hx, (isSafe_iff y).mpr hy⟩
  | .ParenExpr x => by
    rw [isSafe]
    constructor
    · intro h
      exact .paren ((isSafe_iff x).mp h)
    · intro h
      cases h with
      | paren hx => exact (isSafe_iff x).mpr hx
  | .Ident n => by
    simp [isSafe]
    exact .ident n
  | .BasicLit v => by
    simp [isSafe]
    exact .basicLit v
  | .IndexExpr x i => by
    rw [isSafe]
    constructor
    · intro h
      rw [Bool.and_eq_true] at h
      exact .indexE ((isSafe_iff x).mp h.1) ((isSafe_iff i).mp h.2)
    · intro h
      cases h with
      | indexE hx hi =>
        rw [Bool.and_eq_true]
        exact ⟨(isSafe_iff x).mpr hx, (isSafe_iff i).mpr hi⟩
  | .SelectorExpr x s => by
    rw [isSafe]
    constructor
    · intro h
      exact .selector s ((isSafe_iff x).mp h)
    · intro h
      cases h with
      | selector _ hx => exact (isSafe_iff x).mpr hx
  | .CallExpr f args => by
    constructor
    · intro h
      exact Bool.noConfusion h
    · intro h
      cases h
  | .TypeAssertExpr x => by
    constructor
    · intro h
      exact Bool.noConfusion h
    · intro h
      cases h

/-- C8: `isSafe` returns true exactly for the whitelisted shapes and false
for every other node shape; consequently `f() == f()` is never flagged
(call operands are not whitelisted) and `(<-ch) < (<-ch)` is never flagged
(the receive operator makes the operand unsafe), whatever the type oracle
says. -/
theorem isSafe_whitelist :
    (∀ e : Expr, isSafe e = true ↔ SafeShape e)
    ∧ (∀ (ti : TypeOracle) (f : Expr) (args : ExprList) (y : Expr),
      checkBinaryExpr ti .EQL (.CallExpr f args) y = none)
    ∧ (∀ (ti : TypeOracle) (ch y : Expr),
      checkBinaryExpr ti .LSS (.ParenExpr (.UnaryExpr .ARROW ch)) y = none) := by
  refine ⟨isSafe_iff, ?_, ?_⟩
  · intro ti f args y
    simp [checkBinaryExpr, opSet, isSafe]
  · intro ti ch y
    simp [checkBinaryExpr, opSet, isSafe]

/-- C8 witness: the iff at a concrete safe shape, and the two suppressions
at concrete nodes. -/
theorem isSafe_whitelist_witness :
    SafeShape (.IndexExpr (.SelectorExpr (.Ident "a") "b") (.Ident "i"))
    ∧ checkBinaryExpr (fun _ => none) .EQL
        (.CallExpr (.Ident "f") .nil) (.CallExpr (.Ident "f") .nil) = none
    ∧ checkBinaryExpr (fun _ => none) .LSS
        (.ParenExpr (.UnaryExpr .ARROW (.Ident "ch")))
        (.ParenExpr (.UnaryExpr .ARROW (.Ident "ch"))) = none :=
  ⟨(isSafe_whitelist.1 _).mp rfl,
   isSafe_whitelist.2.1 (fun _ => none) _ _ _,
   isSafe_whitelist.2.2 (fun _ => none) _ _⟩

/-! ## Heap model

The frame claim — `VisitExpr` never mutates the original tree because all
in-place rule mutations happen on the private deep copy made by
`astcopy.Expr` — is about aliasing, so it is stated against a heap
rendering of the same code: nodes live at addresses, child links are
addresses, `negatedEquals` and `invertComparison` write fields of existing
nodes in place, `cur.Replace` redirects the parent's field, and
`astcopy.Expr` allocates fresh nodes at the end of the heap.  Recursion over
the (arbitrary) heap is fuel-bounded. -/

/-- An `ast` node as it sits on the Go heap: children are addresses. -/
inductive HNode where
  | unary (op : Token) (x : Nat)
  | binary (op : Token) (x y : Nat)
  | paren (x : Nat)
  | ident (name : String)
  | basicLit (value : String)
  | indexE (x index : Nat)
  | selector (x : Nat) (sel : String)
  | call (fn : Nat) (args : List Nat)
  | typeAssert (x : Nat)
  deriving DecidableEq

/-- The heap: nodes addressed by position; `h[a]?` is pointer dereference,
`none` a dangling pointer. -/
abbrev Heap := List HNode

/-- The child addresses of a node. -/
def nodePtrs : HNode → List Nat
  | .unary _ x => [x]
  | .binary _ x y => [x, y]
  | .paren x => [x]
  | .ident _ => []
  | .basicLit _ => []
  | .indexE x i => [x, i]
  | .selector x _ => [x]
  | .call f args => f :: args
  | .typeAssert x => [x]

/-- `astutil.Unparen` on the heap. -/
def unparenH : Nat → Heap → Nat → Nat
  | 0, _, a => a
  | fuel + 1, h, a =>
    match h[a]? with
    | some (.paren x) => unparenH fuel h x
    | _ => a

/-- `unaryNot` on the heap: the operand address if the node is a unary `!`. -/
def unaryNotH (h : Heap) (a : Nat) : Option Nat :=
  match h[a]? with
  | some (.unary .NOT x) => some x
  | _ => none

/-- `doubleNegation` on the heap: no heap write; on success the returned
address is handed to `cur.Replace`, redirecting the parent's field. -/
def ddH (fuel : Nat) (h : Heap) (a : Nat) : Option Nat :=
  match unaryNotH h a with
  | none => none
  | some x =>
    match unaryNotH h (unparenH fuel h x) with
    | none => none
    | some y => some (unparenH fuel h y)

/-- `negatedEquals` on the heap: rewrites the fields of the `==` node in
place (`x.X = neg1.X; x.Y = neg2.X`); the node keeps its address. -/
def neH (h : Heap) (a : Nat) : Option Heap :=
  match h[a]? with
  | some (.binary .EQL ax ay) =>
    match unaryNotH h ax, unaryNotH h ay with
    | some a0, some b0 => some (h.set a (.binary .EQL a0 b0))
    | _, _ => none
  | _ => none

/-- `invertComparison` on the heap: rewrites the operator of the comparison
node in place (`cmp.Op = ...`) and replaces the cursor node by the
comparison's address (`cur.Replace(cmp)`). -/
def icH (fuel : Nat) (h : Heap) (a : Nat) : Option (Heap × Nat) :=
  match unaryNotH h a with
  | none => none
  | some x =>
    match h[unparenH fuel h x]? with
    | some (.binary op l r) =>
      match invertedOp op with
      | some op2 => some (h.set (unparenH fuel h x) (.binary op2 l r), unparenH fuel h x)
      | none => none
    | _ => none

/-- The rule dispatch of `simplifyBool`'s post function, on the heap:
returns the possibly mutated heap and the address that replaces the cursor
node. -/
def applyRulesH (fuel : Nat) (h : Heap) (a : Nat) : Heap × Nat :=
  match ddH fuel h a with
  | some r => (h, r)
  | none =>
    match neH h a with
    | some h2 => (h2, a)
    | none =>
      match icH fuel h a with
      | some hr => hr
      | none => (h, a)

mutual

/-- `astutil.Apply`'s post-order traversal on the heap: children first (the
parent's fields are updated to the children's replacement addresses), then
the rules at the node.  Out of fuel or at a dangling pointer the walk
stops. -/
def simplifyH : Nat → Heap → Nat → Heap × Nat
  | 0, h, a => (h, a)
  | fuel + 1, h, a =>
    match h[a]? with
    | some (.unary op x) =>
      let r1 := simplifyH fuel h x
      applyRulesH (fuel + 1) (r1.1.set a (.unary op r1.2)) a
    | some (.binary op x y) =>
      let r1 := simplifyH fuel h x
      let r2 := simplifyH fuel r1.1 y
      applyRulesH (fuel + 1) (r2.1.set a (.binary op r1.2 r2.2)) a
    | some (.paren x) =>
      let r1 := simplifyH fuel h x
      applyRulesH (fuel + 1) (r1.1.set a (.paren r1.2)) a
    | some (.ident _) => applyRulesH (fuel + 1) h a
    | some (.basicLit _) => applyRulesH (fuel + 1) h a
    | some (.indexE x i) =>
      let r1 := simplifyH fuel h x
      let r2 := simplifyH fuel r1.1 i
      applyRulesH (fuel + 1) (r2.1.set a (.indexE r1.2 r2.2)) a
    | some (.selector x s) =>
      let r1 := simplifyH fuel h x
      applyRulesH (fuel + 1) (r1.1.set a (.selector r1.2 s)) a
    | some (.call f args) =>
      let r1 := simplifyH fuel h f
      let r2 := simplifyArgsH fuel r1.1 args
      applyRulesH (fuel + 1) (r2.1.set a (.call r1.2 r2.2)) a
    | some (.typeAssert x) =>
      let r1 := simplifyH fuel h x
      applyRulesH (fuel + 1) (r1.1.set a (.typeAssert r1.2)) a
    | none => (h, a)
termination_by fuel _ _ => (fuel, 0)

/-- Post-order traversal of call arguments on the heap. -/
def simplifyArgsH : Nat → Heap → List Nat → Heap × List Nat
  | _, h, [] => (h, [])
  | fuel, h, a :: as =>
    let r1 := simplifyH fuel h a
    let r2 := simplifyArgsH fuel r1.1 as
    (r2.1, r1.2 :: r2.2)
termination_by fuel _ as => (fuel, as.length + 1)

end

mutual

/-- `astcopy.Expr` on the heap: recursively copies the children, then
allocates the copied node at the end of the heap; the copy's address is
returned.  Out of fuel, or at a dangling pointer, a fresh opaque node is
allocated (modelling artifact: `astcopy` always yields a fresh tree). -/
def copyH : Nat → Heap → Nat → Heap × Nat
  | 0, h, _ => (h ++ [.ident ""], h.length)
  | fuel + 1, h, a =>
    match h[a]? with
    | some (.unary op x) =>
      let r1 := copyH fuel h x
      (r1.1 ++ [.unary op r1.2], r1.1.length)
    | some (.binary op x y) =>
      let r1 := copyH fuel h x
      let r2 := copyH fuel r1.1 y
      (r2.1 ++ [.binary op r1.2 r2.2], r2.1.length)
    | some (.paren x) =>
      let r1 := copyH fuel h x
      (r1.1 ++ [.paren r1.2], r1.1.length)
    | some (.ident n) => (h ++ [.ident n], h.length)
    | some (.basicLit v) => (h ++ [.basicLit v], h.length)
    | some (.indexE x i) =>
      let r1 := copyH fuel h x
      let r2 := copyH fuel r1.1 i
      (r2.1 ++ [.indexE r1.2 r2.2], r2.1.length)
    | some (.selector x s) =>
      let r1 := copyH fuel h x
      (r1.1 ++ [.selector r1.2 s], r1.1.length)
    | some (.call f args) =>
      let r1 := copyH fuel h f
      let r2 := copyArgsH fuel r1.1 args
      (r2.1 ++ [.call r1.2 r2.2], r2.1.length)
    | some (.typeAssert x) =>
      let r1 := copyH fuel h x
      (r1.1 ++ [.typeAssert r1.2], r1.1.length)
    | none => (h ++ [.ident ""], h.length)
termination_by fuel _ _ => (fuel, 0)

/-- Deep copy of call-argument address lists. -/
def copyArgsH : Nat → Heap → List Nat → Heap × List Nat
  | _, h, [] => (h, [])
  | fuel, h, a :: as =>
    let r1 := copyH fuel h a
    let r2 := copyArgsH fuel r1.1 as
    (r2.1, r1.2 :: r2.2)
termination_by fuel _ as => (fuel, as.length + 1)

end

mutual

/-- Readback of the tree rooted at an address (fuel-bounded; `none` on a
dangling pointer or fuel exhaustion). -/
def readE : Nat → Heap → Nat → Option Expr
  | 0, _, _ => none
  | fuel + 1, h, a =>
    match h[a]? with
    | some (.unary op x) => (readE fuel h x).map (.UnaryExpr op)
    | some (.binary op x y) =>
      match readE fuel h x, readE fuel h y with
      | some ex, some ey => some (.BinaryExpr op ex ey)
      | _, _ => none
    | some (.paren x) => (readE fuel h x).map .ParenExpr
    | some (.ident n) => some (.Ident n)
    | some (.basicLit v) => some (.BasicLit v)
    | some (.indexE x i) =>
      match readE fuel h x, readE fuel h i with
      | some ex, some ei => some (.IndexExpr ex ei)
      | _, _ => none
    | some (.selector x s) => (readE fuel h x).map (fun e => .SelectorExpr e s)
    | some (.call f args) =>
      match readE fuel h f, readArgsE fuel h args with
      | some ef, some eas => some (.CallExpr ef eas)
      | _, _ => none
    | some (.typeAssert x) => (readE fuel h x).map .TypeAssertExpr
    | none => none
termination_by fuel _ _ => (fuel, 0)

/-- Readback of call-argument address lists. -/
def readArgsE : Nat → Heap → List Nat → Option ExprList
  | _, _, [] => some .nil
  | fuel, h, a :: as =>
    match readE fuel h a, readArgsE fuel h as with
    | some e, some es => some (.cons e es)
    | _, _ => none
termination_by fuel _ as => (fuel, as.length + 1)

end

/-- `astequal.Expr` on the heap, via readback of both trees. -/
def heapEqE (fuel : Nat) (h : Heap) (a b : Nat) : Bool :=
  match readE fuel h a, readE fuel h b with
  | some ea, some eb => astequalExpr ea eb
  | _, _ => false

/-- `VisitExpr` on the heap: deep-copies the node, simplifies the copy in
place, compares against the untouched original, and on a difference reports
the pair of addresses (original, suggestion).  The heap after the call is
the first component. -/
def visitExprH (fuel : Nat) (h : Heap) (x : Nat) : Heap × Option (Nat × Nat) :=
  let r1 := copyH fuel h x
  let r2 := simplifyH fuel r1.1 r1.2
  if heapEqE fuel r2.1 x r2.2 then (r2.1, none) else (r2.1, some (x, r2.2))

/-- All nodes at addresses `≥ N` point only at addresses `≥ N`: the heap
region above `N` is closed under child links.  The region freshly allocated
by `astcopy` has this shape. -/
def RegionClosed (h : Heap) (N : Nat) : Prop :=
  ∀ b, N ≤ b → ∀ node, h[b]? = some node → ∀ c ∈ nodePtrs node, N ≤ c

/-- Above the end of the heap there are no nodes at all, so the empty
region is closed. -/
theorem regionClosed_trivial (h : Heap) : RegionClosed h h.length := by
  intro b hb node hnode c _
  rw [List.getElem?_eq_none hb] at hnode
  exact Option.noConfusion hnode

/-- Writing at an address `≥ N` does not change the heap below `N`. -/
theorem prefix_set (h : Heap) (a : Nat) (node : HNode) {N : Nat} (ha : N ≤ a) :
    ∀ b, b < N → (h.set a node)[b]? = h[b]? := by
  intro b hb
  exact List.getElem?_set_ne (by omega)

/-- Writing a node whose pointers stay in the region keeps the region
closed. -/
theorem regionClosed_set {h : Heap} {N : Nat} (a : Nat) (node : HNode)
    (hr : RegionClosed h N) (_ha : N ≤ a) (hp : ∀ c ∈ nodePtrs node, N ≤ c) :
    RegionClosed (h.set a node) N := by
  intro b hb nd hnd c hc
  by_cases hab : a = b
  · subst hab
    by_cases hlen : a < h.length
    · rw [List.getElem?_set_eq_of_lt node hlen] at hnd
      cases hnd
      exact hp c hc
    · rw [List.set_eq_of_length_le (by omega)] at hnd
      exact hr a hb nd hnd c hc
  · rw [List.getElem?_set_ne hab] at hnd
    exact hr b hb nd hnd c hc

/-- Appending a node whose pointers stay in the region keeps the region
closed. -/
theorem regionClosed_append {h : Heap} {N : Nat} (node : HNode)
    (hr : RegionClosed h N) (hp : ∀ c ∈ nodePtrs node, N ≤ c) :
    RegionClosed (h ++ [node]) N := by
  intro b hb nd hnd c hc
  by_cases hlen : b < h.length
  · rw [List.getElem?_append, if_pos hlen] at hnd
    exact hr b hb nd hnd c hc
  · rw [List.getElem?_append, if_neg hlen] at hnd
    cases hk : b - h.length with
    | zero =>
      rw [hk] at hnd
      cases hnd
      exact hp c hc
    | succ k =>
      rw [hk] at hnd
      simp at hnd

/-- Appending preserves the heap below its old length. -/
theorem prefix_append (h : Heap) (node : HNode) :
    ∀ b, b < h.length → (h ++ [node])[b]? = h[b]? := by
  intro b hb
  rw [List.getElem?_append, if_pos hb]

/-- `unparenH` never leaves the closed region. -/
theorem unparenH_ge (fuel : Nat) (h : Heap) {N : Nat} (a : Nat)
    (hr : RegionClosed h N) (ha : N ≤ a) : N ≤ unparenH fuel h a := by
  induction fuel generalizing a with
  | zero => exact ha
  | succ fuel ih =>
    cases hn : h[a]? with
    | none => simpa [unparenH, hn] using ha
    | some node =>
      cases node with
      | paren x =>
        rw [unparenH, hn]
        exact ih x (hr a ha _ hn x (by simp [nodePtrs]))
      | unary op x => simpa [unparenH, hn] using ha
      | binary op x y => simpa [unparenH, hn] using ha
      | ident n => simpa [unparenH, hn] using ha
      | basicLit v => simpa [unparenH, hn] using ha
      | indexE x i => simpa [unparenH, hn] using ha
      | selector x s => simpa [unparenH, hn] using ha
      | call f args => simpa [unparenH, hn] using ha
      | typeAssert x => simpa [unparenH, hn] using ha

/-- The operand address returned by `unaryNotH` on a region node stays in
the region. -/
theorem unaryNotH_ge {h : Heap} {N : Nat} {a x : Nat}
    (hr : RegionClosed h N) (ha : N ≤ a) (hx : unaryNotH h a = some x) :
    N ≤ x := by
  unfold unaryNotH at hx
  split at hx
  · cases hx
    next heq => exact hr a ha _ heq x (by simp [nodePtrs])
  · exact Option.noConfusion hx

/-- The rule dispatch writes only inside the closed region: the heap below
`N` is untouched, the region stays closed, the replacement address stays in
the region and the heap keeps its length. -/
theorem applyRulesH_spec (fuel : Nat) (h : Heap) (a : Nat) {N : Nat}
    (hr : RegionClosed h N) (ha : N ≤ a) :
    (∀ b, b < N → ((applyRulesH fuel h a).1)[b]? = h[b]?)
    ∧ RegionClosed (applyRulesH fuel h a).1 N
    ∧ N ≤ (applyRulesH fuel h a).2
    ∧ (applyRulesH fuel h a).1.length = h.length := by
  cases hdd : ddH fuel h a with
  | some r =>
    simp only [applyRulesH, hdd]
    refine ⟨by simp, hr, ?_, by simp⟩
    unfold ddH at hdd
    cases hun : unaryNotH h a with
    | none => simp [hun] at hdd
    | some x =>
      simp only [hun] at hdd
      cases hun2 : unaryNotH h (unparenH fuel h x) with
      | none => simp [hun2] at hdd
      | some y =>
        simp only [hun2, Option.some.injEq] at hdd
        subst hdd
        have hx : N ≤ x := unaryNotH_ge hr ha hun
        have hux : N ≤ unparenH fuel h x := unparenH_ge fuel h x hr hx
        have hy : N ≤ y := unaryNotH_ge hr hux hun2
        exact unparenH_ge fuel h y hr hy
  | none =>
    cases hne : neH h a with
    | some h2 =>
      simp only [applyRulesH, hdd, hne]
      unfold neH at hne
      cases heq : h[a]? with
      | none => simp [heq] at hne
      | some node =>
        cases node with
        | binary op ax ay =>
          cases op <;> simp only [heq] at hne <;> try exact Option.noConfusion hne
          cases hu1 : unaryNotH h ax with
          | none => simp [hu1] at hne
          | some a0 =>
            cases hu2 : unaryNotH h ay with
            | none => simp [hu1, hu2] at hne
            | some b0 =>
              simp only [hu1, hu2, Option.some.injEq] at hne
              subst hne
              have hax : N ≤ ax := hr a ha _ heq ax (by simp [nodePtrs])
              have hay : N ≤ ay := hr a ha _ heq ay (by simp [nodePtrs])
              have ha0 : N ≤ a0 := unaryNotH_ge hr hax hu1
              have hb0 : N ≤ b0 := unaryNotH_ge hr hay hu2
              refine ⟨prefix_set h a _ ha, ?_, ha, by simp⟩
              refine regionClosed_set a _ hr ha ?_
              intro c hc
              simp [nodePtrs] at hc
              rcases hc with rfl | rfl
              · exact ha0
              · exact hb0
        | unary op x => simp [heq] at hne
        | paren x => simp [heq] at hne
        | ident n => simp [heq] at hne
        | basicLit v => simp [heq] at hne
        | indexE x i => simp [heq] at hne
        | selector x s => simp [heq] at hne
        | call f args => simp [heq] at hne
        | typeAssert x => simp [heq] at hne
    | none =>
      cases hic : icH fuel h a with
      | some hr2 =>
        simp only [applyRulesH, hdd, hne, hic]
        unfold icH at hic
        cases hun : unaryNotH h a with
        | none => simp [hun] at hic
        | some x =>
          simp only [hun] at hic
          cases heq : h[unparenH fuel h x]? with
          | none => simp [heq] at hic
          | some node =>
            cases node with
            | binary op l r =>
              simp only [heq] at hic
              cases hop : invertedOp op with
              | none => simp [hop] at hic
              | some op2 =>
                simp only [hop, Option.some.injEq] at hic
                subst hic
                have hx : N ≤ x := unaryNotH_ge hr ha hun
                have hx2 : N ≤ unparenH fuel h x := unparenH_ge fuel h x hr hx
                have hl : N ≤ l := hr _ hx2 _ heq l (by simp [nodePtrs])
                have hrr : N ≤ r := hr _ hx2 _ heq r (by simp [nodePtrs])
                refine ⟨prefix_set h _ _ hx2, ?_, hx2, by simp⟩
                refine regionClosed_set _ _ hr hx2 ?_
                intro c hc
                simp [nodePtrs] at hc
                rcases hc with rfl | rfl
                · exact hl
                · exact hrr
            | unary op x2 => simp [heq] at hic
            | paren x2 => simp [heq] at hic
            | ident n => simp [heq] at hic
            | basicLit v => simp [heq] at hic
            | indexE x2 i => simp [heq] at hic
            | selector x2 s2 => simp [heq] at hic
            | call f args => simp [heq] at hic
            | typeAssert x2 => simp [heq] at hic
      | none =>
        simp only [applyRulesH, hdd, hne, hic]
        exact ⟨by simp, hr, ha, by simp⟩

/-- Combined step: writing the updated node back into the heap and running
the rules keeps the frame (heap below `N` as in the pre-state `h`), the
region closure and the length. -/
theorem setApply_spec (fuel : Nat) (h h' : Heap) (a N : Nat) (node : HNode)
    (pre : ∀ b, b < N → h'[b]? = h[b]?) (hr' : RegionClosed h' N)
    (len : h'.length = h.length) (ha : N ≤ a)
    (hp : ∀ c ∈ nodePtrs node, N ≤ c) :
    (∀ b, b < N → ((applyRulesH fuel (h'.set a node) a).1)[b]? = h[b]?)
    ∧ RegionClosed (applyRulesH fuel (h'.set a node) a).1 N
    ∧ N ≤ (applyRulesH fuel (h'.set a node) a).2
    ∧ (applyRulesH fuel (h'.set a node) a).1.length = h.length := by
  have hrs : RegionClosed (h'.set a node) N := regionClosed_set a node hr' ha hp
  obtain ⟨p, rc, hna, hlen⟩ := applyRulesH_spec fuel (h'.set a node) a hrs ha
  refine ⟨?_, rc, hna, ?_⟩
  · intro b hb
    rw [p b hb, prefix_set h' a node ha b hb, pre b hb]
  · rw [hlen, List.length_set, len]

mutual

/-- The in-place simplification of the copy writes only at addresses of the
closed region `≥ N`: the heap below `N` is exactly the input heap, the
region stays closed, the returned root stays in the region and the heap
keeps its length. -/
theorem simplifyH_spec : ∀ (fuel : Nat) (h : Heap) (a N : Nat),
    RegionClosed h N → N ≤ a →
    (∀ b, b < N → ((simplifyH fuel h a).1)[b]? = h[b]?)
    ∧ RegionClosed (simplifyH fuel h a).1 N
    ∧ N ≤ (simplifyH fuel h a).2
    ∧ (simplifyH fuel h a).1.length = h.length
  | 0, h, a, N, hr, ha => by
    simp only [simplifyH]
    exact ⟨by simp, hr, ha, by simp⟩
  | fuel + 1, h, a, N, hr, ha => by
    cases heq : h[a]? with
    | none =>
      simp only [simplifyH, heq]
      exact ⟨by simp, hr, ha, by simp⟩
    | some node =>
      cases node with
      | unary op x =>
        simp only [simplifyH, heq]
        have hx : N ≤ x := hr a ha _ heq x (by simp [nodePtrs])
        obtain ⟨p1, rc1, hn1, len1⟩ := simplifyH_spec fuel h x N hr hx
        refine setApply_spec (fuel + 1) h _ a N _ p1 rc1 len1 ha ?_
        intro c hc
        simp [nodePtrs] at hc
        subst hc
        exact hn1
      | binary op x y =>
        simp only [simplifyH, heq]
        have hx : N ≤ x := hr a ha _ heq x (by simp [nodePtrs])
        have hy : N ≤ y := hr a ha _ heq y (by simp [nodePtrs])
        obtain ⟨p1, rc1, hn1, len1⟩ := simplifyH_spec fuel h x N hr hx
        obtain ⟨p2, rc2, hn2, len2⟩ :=
          simplifyH_spec fuel (simplifyH fuel h x).1 y N rc1 hy
        refine setApply_spec (fuel + 1) h _ a N _ ?_ rc2 (len2.trans len1) ha ?_
        · intro b hb
          rw [p2 b hb, p1 b hb]
        · intro c hc
          simp [nodePtrs] at hc
          rcases hc with rfl | rfl
          · exact hn1
          · exact hn2
      | paren x =>
        simp only [simplifyH, heq]
        have hx : N ≤ x := hr a ha _ heq x (by simp [nodePtrs])
        obtain ⟨p1, rc1, hn1, len1⟩ := simplifyH_spec fuel h x N hr hx
        refine setApply_spec (fuel + 1) h _ a N _ p1 rc1 len1 ha ?_
        intro c hc
        simp [nodePtrs] at hc
        subst hc
        exact hn1
      | ident n =>
        simp only [simplifyH, heq]
        exact applyRulesH_spec (fuel + 1) h a hr ha
      | basicLit v =>
        simp only [simplifyH, heq]
        exact applyRulesH_spec (fuel + 1) h a hr ha
      | indexE x i =>
        simp only [simplifyH, heq]
        have hx : N ≤ x := hr a ha _ heq x (by simp [nodePtrs])
        have hi : N ≤ i := hr a ha _ heq i (by simp [nodePtrs])
        obtain ⟨p1, rc1, hn1, len1⟩ := simplifyH_spec fuel h x N hr hx
        obtain ⟨p2, rc2, hn2, len2⟩ :=
          simplifyH_spec fuel (simplifyH fuel h x).1 i N rc1 hi
        refine setApply_spec (fuel + 1) h _ a N _ ?_ rc2 (len2.trans len1) ha ?_
        · intro b hb
          rw [p2 b hb, p1 b hb]
        · intro c hc
          simp [nodePtrs] at hc
          rcases hc with rfl | rfl
          · exact hn1
          · exact hn2
      | selector x s =>
        simp only [simplifyH, heq]
        have hx : N ≤ x := hr a ha _ heq x (by simp [nodePtrs])
        obtain ⟨p1, rc1, hn1, len1⟩ := simplifyH_spec fuel h x N hr hx
        refine setApply_spec (fuel + 1) h _ a N _ p1 rc1 len1 ha ?_
        intro c hc
        simp [nodePtrs] at hc
        subst hc
        exact hn1
      | call f args =>
        simp only [simplifyH, heq]
        have hf : N ≤ f := hr a ha _ heq f (by simp [nodePtrs])
        have hargs : ∀ c ∈ args, N ≤ c := by
          intro c hc
          exact hr a ha _ heq c (by simp [nodePtrs, hc])
        obtain ⟨p1, rc1, hn1, len1⟩ := simplifyH_spec fuel h f N hr hf
        obtain ⟨p2, rc2, hn2, len2⟩ :=
          simplifyArgsH_spec fuel (simplifyH fuel h f).1 args N rc1 hargs
        refine setApply_spec (fuel + 1) h _ a N _ ?_ rc2 (len2.trans len1) ha ?_
        · intro b hb
          rw [p2 b hb, p1 b hb]
        · intro c hc
          simp [nodePtrs] at hc
          rcases hc with rfl | hc
          · exact hn1
          · exact hn2 c hc
      | typeAssert x =>
        simp only [simplifyH, heq]
        have hx : N ≤ x := hr a ha _ heq x (by simp [nodePtrs])
        obtain ⟨p1, rc1, hn1, len1⟩ := simplifyH_spec fuel h x N hr hx
        refine setApply_spec (fuel + 1) h _ a N _ p1 rc1 len1 ha ?_
        intro c hc
        simp [nodePtrs] at hc
        subst hc
        exact hn1
termination_by fuel _ _ _ => (fuel, 0)

/-- As `simplifyH_spec`, for argument lists; additionally all returned
argument addresses stay in the region. -/
theorem simplifyArgsH_spec : ∀ (fuel : Nat) (h : Heap) (as : List Nat) (N : Nat),
    RegionClosed h N → (∀ c ∈ as, N ≤ c) →
    (∀ b, b < N → ((simplifyArgsH fuel h as).1)[b]? = h[b]?)
    ∧ RegionClosed (simplifyArgsH fuel h as).1 N
    ∧ (∀ c ∈ (simplifyArgsH fuel h as).2, N ≤ c)
    ∧ (simplifyArgsH fuel h as).1.length = h.length
  | fuel, h, [], N, hr, _ => by
    simp only [simplifyArgsH]
    exact ⟨by simp, hr, by simp, by simp⟩
  | fuel, h, a :: as, N, hr, hcs => by
    simp only [simplifyArgsH]
    have ha : N ≤ a := hcs a (by simp)
    obtain ⟨p1, rc1, hn1, len1⟩ := simplifyH_spec fuel h a N hr ha
    obtain ⟨p2, rc2, hn2, len2⟩ :=
      simplifyArgsH_spec fuel (simplifyH fuel h a).1 as N rc1
        (fun c hc => hcs c (by simp [hc]))
    refine ⟨?_, rc2, ?_, len2.trans len1⟩
    · intro b hb
      rw [p2 b hb, p1 b hb]
    · intro c hc
      simp at hc
      rcases hc with rfl | hc
      · exact hn1
      · exact hn2 c hc
termination_by fuel _ as _ => (fuel, as.length + 1)

end

mutual

/-- `astcopy` on the heap only appends: the heap below its old length is
untouched, the copied region is closed above `N`, the copy's root lies in
the region and the heap only grows. -/
theorem copyH_spec : ∀ (fuel : Nat) (h : Heap) (a N : Nat),
    N ≤ h.length → RegionClosed h N →
    (∀ b, b < h.length → ((copyH fuel h a).1)[b]? = h[b]?)
    ∧ RegionClosed (copyH fuel h a).1 N
    ∧ N ≤ (copyH fuel h a).2
    ∧ h.length ≤ (copyH fuel h a).1.length
  | 0, h, _, N, hN, hr => by
    simp only [copyH]
    exact ⟨prefix_append h _, regionClosed_append _ hr (by simp [nodePtrs]), hN,
      by simp⟩
  | fuel + 1, h, a, N, hN, hr => by
    cases heq : h[a]? with
    | none =>
      simp only [copyH, heq]
      exact ⟨prefix_append h _, regionClosed_append _ hr (by simp [nodePtrs]), hN,
        by simp⟩
    | some node =>
      cases node with
      | unary op x =>
        simp only [copyH, heq]
        obtain ⟨p1, rc1, hn1, len1⟩ := copyH_spec fuel h x N hN hr
        refine ⟨?_, regionClosed_append _ rc1 ?_, le_trans hN len1, by simp; omega⟩
        · intro b hb
          rw [prefix_append _ _ b (lt_of_lt_of_le hb len1), p1 b hb]
        · intro c hc
          simp [nodePtrs] at hc
          subst hc
          exact hn1
      | binary op x y =>
        simp only [copyH, heq]
        obtain ⟨p1, rc1, hn1, len1⟩ := copyH_spec fuel h x N hN hr
        obtain ⟨p2, rc2, hn2, len2⟩ :=
          copyH_spec fuel (copyH fuel h x).1 y N (le_trans hN len1) rc1
        refine ⟨?_, regionClosed_append _ rc2 ?_,
          le_trans hN (len1.trans len2), by simp; omega⟩
        · intro b hb
          rw [prefix_append _ _ b (lt_of_lt_of_le hb (len1.trans len2)),
            p2 b (lt_of_lt_of_le hb len1), p1 b hb]
        · intro c hc
          simp [nodePtrs] at hc
          rcases hc with rfl | rfl
          · exact hn1
          · exact hn2
      | paren x =>
        simp only [copyH, heq]
        obtain ⟨p1, rc1, hn1, len1⟩ := copyH_spec fuel h x N hN hr
        refine ⟨?_, regionClosed_append _ rc1 ?_, le_trans hN len1, by simp; omega⟩
        · intro b hb
          rw [prefix_append _ _ b (lt_of_lt_of_le hb len1), p1 b hb]
        · intro c hc
          simp [nodePtrs] at hc
          subst hc
          exact hn1
      | ident n =>
        simp only [copyH, heq]
        exact ⟨prefix_append h _, regionClosed_append _ hr (by simp [nodePtrs]),
          hN, by simp⟩
      | basicLit v =>
        simp only [copyH, heq]
        exact ⟨prefix_append h _, regionClosed_append _ hr (by simp [nodePtrs]),
          hN, by simp⟩
      | indexE x i =>
        simp only [copyH, heq]
        obtain ⟨p1, rc1, hn1, len1⟩ := copyH_spec fuel h x N hN hr
        obtain ⟨p2, rc2, hn2, len2⟩ :=
          copyH_spec fuel (copyH fuel h x).1 i N (le_trans hN len1) rc1
        refine ⟨?_, regionClosed_append _ rc2 ?_,
          le_trans hN (len1.trans len2), by simp; omega⟩
        · intro b hb
          rw [prefix_append _ _ b (lt_of_lt_of_le hb (len1.trans len2)),
            p2 b (lt_of_lt_of_le hb len1), p1 b hb]
        · intro c hc
          simp [nodePtrs] at hc
          rcases hc with rfl | rfl
          · exact hn1
          · exact hn2
      | selector x s =>
        simp only [copyH, heq]
        obtain ⟨p1, rc1, hn1, len1⟩ := copyH_spec fuel h x N hN hr
        refine ⟨?_, regionClosed_append _ rc1 ?_, le_trans hN len1, by simp; omega⟩
        · intro b hb
          rw [prefix_append _ _ b (lt_of_lt_of_le hb len1), p1 b hb]
        · intro c hc
          simp [nodePtrs] at hc
          subst hc
          exact hn1
      | call f args =>
        simp only [copyH, heq]
        obtain ⟨p1, rc1, hn1, len1⟩ := copyH_spec fuel h f N hN hr
        obtain ⟨p2, rc2, hn2, len2⟩ :=
          copyArgsH_spec fuel (copyH fuel h f).1 args N (le_trans hN len1) rc1
        refine ⟨?_, regionClosed_append _ rc2 ?_,
          le_trans hN (len1.trans len2), by simp; omega⟩
        · intro b hb
          rw [prefix_append _ _ b (lt_of_lt_of_le hb (len1.trans len2)),
            p2 b (lt_of_lt_of_le hb len1), p1 b hb]
        · intro c hc
          simp [nodePtrs] at hc
          rcases hc with rfl | hc
          · exact hn1
          · exact hn2 c hc
      | typeAssert x =>
        simp only [copyH, heq]
        obtain ⟨p1, rc1, hn1, len1⟩ := copyH_spec fuel h x N hN hr
        refine ⟨?_, regionClosed_append _ rc1 ?_, le_trans hN len1, by simp; omega⟩
        · intro b hb
          rw [prefix_append _ _ b (lt_of_lt_of_le hb len1), p1 b hb]
        · intro c hc
          simp [nodePtrs] at hc
          subst hc
          exact hn1
termination_by fuel _ _ _ => (fuel, 0)

/-- As `copyH_spec`, for argument lists; all copied argument addresses lie
in the region. -/
theorem copyArgsH_spec : ∀ (fuel : Nat) (h : Heap) (as : List Nat) (N : Nat),
    N ≤ h.length → RegionClosed h N →
    (∀ b, b < h.length → ((copyArgsH fuel h as).1)[b]? = h[b]?)
    ∧ RegionClosed (copyArgsH fuel h as).1 N
    ∧ (∀ c ∈ (copyArgsH fuel h as).2, N ≤ c)
    ∧ h.length ≤ (copyArgsH fuel h as).1.length
  | fuel, h, [], N, hN, hr => by
    simp only [copyArgsH]
    exact ⟨by simp, hr, by simp, by simp⟩
  | fuel, h, a :: as, N, hN, hr => by
    simp only [copyArgsH]
    obtain ⟨p1, rc1, hn1, len1⟩ := copyH_spec fuel h a N hN hr
    obtain ⟨p2, rc2, hn2, len2⟩ :=
      copyArgsH_spec fuel (copyH fuel h a).1 as N (le_trans hN len1) rc1
    refine ⟨?_, rc2, ?_, len1.trans len2⟩
    · intro b hb
      rw [p2 b (lt_of_lt_of_le hb len1), p1 b hb]
    · intro c hc
      simp at hc
      rcases hc with rfl | hc
      · exact hn1
      · exact hn2 c hc
termination_by fuel _ as _ => (fuel, as.length + 1)

end

/-- A well-formed heap: no dangling child pointers. -/
abbrev WFHeap (h : Heap) : Prop :=
  ∀ (b : Nat) (node : HNode), h[b]? = some node → ∀ c ∈ nodePtrs node, c < h.length

mutual

/-- Readback only depends on the entries of the well-formed region it
reads. -/
theorem readE_agree : ∀ (fuel : Nat) (h h' : Heap) (a : Nat),
    WFHeap h → (∀ b, b < h.length → h'[b]? = h[b]?) → a < h.length →
    readE fuel h' a = readE fuel h a
  | 0, _, _, _, _, _, _ => by simp only [readE]
  | fuel + 1, h, h', a, hwf, pre, ha => by
    cases heq : h[a]? with
    | none =>
      simp only [readE, pre a ha, heq]
    | some node =>
      cases node with
      | unary op x =>
        simp only [readE, pre a ha, heq]
        rw [readE_agree fuel h h' x hwf pre (hwf a _ heq x (by simp [nodePtrs]))]
      | binary op x y =>
        simp only [readE, pre a ha, heq]
        rw [readE_agree fuel h h' x hwf pre (hwf a _ heq x (by simp [nodePtrs])),
          readE_agree fuel h h' y hwf pre (hwf a _ heq y (by simp [nodePtrs]))]
      | paren x =>
        simp only [readE, pre a ha, heq]
        rw [readE_agree fuel h h' x hwf pre (hwf a _ heq x (by simp [nodePtrs]))]
      | ident n => simp only [readE, pre a ha, heq]
      | basicLit v => simp only [readE, pre a ha, heq]
      | indexE x i =>
        simp only [readE, pre a ha, heq]
        rw [readE_agree fuel h h' x hwf pre (hwf a _ heq x (by simp [nodePtrs])),
          readE_agree fuel h h' i hwf pre (hwf a _ heq i (by simp [nodePtrs]))]
      | selector x s =>
        simp only [readE, pre a ha, heq]
        rw [readE_agree fuel h h' x hwf pre (hwf a _ heq x (by simp [nodePtrs]))]
      | call f args =>
        simp only [readE, pre a ha, heq]
        rw [readE_agree fuel h h' f hwf pre (hwf a _ heq f (by simp [nodePtrs])),
          readArgsE_agree fuel h h' args hwf pre
            (fun c hc => hwf a _ heq c (by simp [nodePtrs, hc]))]
      | typeAssert x =>
        simp only [readE, pre a ha, heq]
        rw [readE_agree fuel h h' x hwf pre (hwf a _ heq x (by simp [nodePtrs]))]
termination_by fuel _ _ _ => (fuel, 0)

/-- As `readE_agree`, for argument lists. -/
theorem readArgsE_agree : ∀ (fuel : Nat) (h h' : Heap) (as : List Nat),
    WFHeap h → (∀ b, b < h.length → h'[b]? = h[b]?) → (∀ c ∈ as, c < h.length) →
    readArgsE fuel h' as = readArgsE fuel h as
  | _, _, _, [], _, _, _ => by simp only [readArgsE]
  | fuel, h, h', a :: as, hwf, pre, hcs => by
    simp only [readArgsE]
    rw [readE_agree fuel h h' a hwf pre (hcs a (by simp)),
      readArgsE_agree fuel h h' as hwf pre (fun c hc => hcs c (by simp [hc]))]
termination_by fuel _ _ as => (fuel, as.length + 1)

end

/-- C9: `VisitExpr` never mutates the original tree: every heap cell of the
input heap is unchanged by the call — the deep copy only appends fresh
nodes and the rewrite mutations stay inside the freshly copied, closed
region — and consequently the readback of any original node, in particular
of the visited expression, is unchanged. -/
theorem visitExprH_frame (fuel : Nat) (h : Heap) (x : Nat) :
    (∀ b, b < h.length → ((visitExprH fuel h x).1)[b]? = h[b]?)
    ∧ (WFHeap h → ∀ (fuel2 b : Nat), b < h.length →
      readE fuel2 (visitExprH fuel h x).1 b = readE fuel2 h b) := by
  obtain ⟨cp, crc, cN, clen⟩ :=
    copyH_spec fuel h x h.length le_rfl (regionClosed_trivial h)
  obtain ⟨sp, src, sN, slen⟩ :=
    simplifyH_spec fuel (copyH fuel h x).1 (copyH fuel h x).2 h.length crc cN
  have hbase : (visitExprH fuel h x).1
      = (simplifyH fuel (copyH fuel h x).1 (copyH fuel h x).2).1 := by
    unfold visitExprH
    dsimp only
    split <;> rfl
  have hpre : ∀ b, b < h.length → ((visitExprH fuel h x).1)[b]? = h[b]? := by
    intro b hb
    rw [hbase, sp b hb, cp b hb]
  refine ⟨hpre, ?_⟩
  intro hwf fuel2 b hb
  exact readE_agree fuel2 h _ b hwf hpre hb

/-- C9 witness: on the one-node heap holding the identifier `a`, the cell of
the original node and its readback are untouched by `VisitExpr`. -/
theorem visitExprH_frame_witness :
    ((visitExprH 3 [HNode.ident "a"] 0).1)[0]? = some (HNode.ident "a")
    ∧ readE 1 (visitExprH 3 [HNode.ident "a"] 0).1 0 = some (.Ident "a") := by
  have hwf : WFHeap [HNode.ident "a"] := by
    intro b node hb c hc
    cases b with
    | zero =>
      simp at hb
      subst hb
      simp [nodePtrs] at hc
    | succ b => simp at hb
  constructor
  · rw [(visitExprH_frame 3 [HNode.ident "a"] 0).1 0 (by decide)]
    simp
  · rw [(visitExprH_frame 3 [HNode.ident "a"] 0).2 hwf 1 0 (by decide)]
    simp [readE]

end GoCritic
